import Mathlib

/-!
# Verification of the LPC granular pitch-shifting core

Shallow embedding of the numeric core of `17_Voice_Transformers.py`
(autocorrelation, Levinson-Durbin, LPC analysis/synthesis filters,
fractional resampler, tapered window, granular overlap-add engine).

Real-valued samples are modelled as exact rationals `ℚ`.  Python `int()`
truncation toward zero, Python/numpy negative-index wrapping, slice
clamping, and numpy broadcast errors (modelled with `Option`) are
embedded explicitly where they matter.
-/

/-- Python `int(t)` on a real value: truncation toward zero. -/
def pyInt (t : ℚ) : ℤ :=
  if 0 ≤ t then ⌊t⌋ else ⌈t⌉

/-- Python / numpy scalar indexing `x[n]` with an `Int` index: a negative
index wraps to `len(x) + n`; an index out of range raises `IndexError`,
modelled as `none`. -/
def pyGet? (x : List ℚ) (n : ℤ) : Option ℚ :=
  let i : ℤ := if n < 0 then (x.length : ℤ) + n else n
  if 0 ≤ i ∧ i < (x.length : ℤ) then x.get? i.toNat else none

/-- Python `range(0, stop, stride)` for a positive `stride` (the only case
the engine reaches with the parameters the claims quantify over: there
`stride ≥ 1`).  For `stride = 0` Python raises; the engine is also called
with `stride = -1` when `G = 0`, where Python's range is empty, matching
`[]` here via `Int.toNat` clamping at the call site. -/
def rangeStep (stop : ℤ) (stride : ℕ) : List ℕ :=
  if stride = 0 then []
  else (List.range ((stop.toNat + stride - 1) / stride)).map (fun k => k * stride)

/-- numpy `y[n:n+len(v)] += v` when the slice is fully in range:
positions `n ≤ i < n + len(v)` of `y` receive `v[i-n]` additively. -/
def addAt (y : List ℚ) (n : ℕ) (v : List ℚ) : List ℚ :=
  (List.range y.length).map
    (fun i => y.getD i 0 + (if n ≤ i then v.getD (i - n) 0 else 0))

/-- `subsample(x, t)` from the source: linear interpolation at real index
`t`, where `n = int(t)` truncates toward zero, out-of-range accesses fall
back (first to the `a * x[n]` term, then to `0`), and negative in-range
indices wrap as in Python. -/
def subsample (x : List ℚ) (t : ℚ) : ℚ :=
  let n : ℤ := pyInt t
  let a : ℚ := 1 - (t - n)
  match pyGet? x n, pyGet? x (n + 1) with
  | some xn, some xn1 => a * xn + (1 - a) * xn1
  | some xn, none => a * xn
  | none, _ => 0

/-- `resample(x, f)` from the source: `n_out = int(floor(len(x)/f))`
samples, sample `n` being `subsample(x, n*f)`.  (`Int.toNat` clamps the
negative `n_out` arising for `f < 0`, where Python's range is empty.) -/
def resample (x : List ℚ) (f : ℚ) : List ℚ :=
  (List.range (⌊(x.length : ℚ) / f⌋).toNat).map
    (fun (n : ℕ) => subsample x ((n : ℚ) * f))

/-- The trapezoidal window of `win_taper`, for ramp length `R`:
`np.r_[r, np.ones(N - 2*R), r[::-1]]` with `r = np.arange(0, R)/float(R)`. -/
def trap (N R : ℕ) : List ℚ :=
  (List.range R).map (fun (k : ℕ) => (k : ℚ) / (R : ℚ))
    ++ List.replicate (N - 2 * R) 1
    ++ ((List.range R).map (fun (k : ℕ) => (k : ℚ) / (R : ℚ))).reverse

/-- `win_taper(N, a)` from the source: `R = int(N*a/2)`, the trapezoidal
window, and `stride = N - R - 1`. -/
def win_taper (N : ℕ) (a : ℚ) : List ℚ × ℤ :=
  let R : ℕ := (pyInt ((N : ℚ) * a / 2)).toNat
  (trap N R, (N : ℤ) - (R : ℤ) - 1)

/-- `bac(x, p)` from the source: biased autocorrelation,
`r[m] = (sum_{n=0}^{L-m-1} x[n]*x[n+m]) / L` for `m = 0..p`.
Caution: this total `ℚ` model gives `0/0 = 0`, while the float source's
`r[m] /= float(L)` forms `0.0/0.0 = NaN` at an empty block (`L = 0`,
numpy warns only); theorems about nonempty blocks are unaffected, and
`bacChecked` tracks the NaN-producing division for the `L = 0` case. -/
def bac (x : List ℚ) (p : ℕ) : List ℚ :=
  (List.range (p + 1)).map
    (fun m =>
      (∑ n ∈ Finset.range (x.length - m), x.getD n 0 * x.getD (n + m) 0)
        / (x.length : ℚ))

/-- `bac` with the floating-point division's divisor checked: the source
divides every entry by `float(L)`, so for an empty block each entry is
`0.0/0.0 = NaN` (numpy emits only a warning, no exception).  As in
`ldChecked`, `none` marks that silent NaN-producing division. -/
def bacChecked (x : List ℚ) (p : ℕ) : Option (List ℚ) :=
  if (x.length : ℚ) = 0 then none else some (bac x p)

/-- Initial state of the Levinson-Durbin loop in `ld`:
`g = r[1]/r[0]`, `a = [g]`, `v = (1 - g*g)*r[0]`. -/
def ldInit (r : List ℚ) : List ℚ × ℚ :=
  let g := r.getD 1 0 / r.getD 0 0
  ([g], (1 - g * g) * r.getD 0 0)

/-- One iteration of the Levinson-Durbin loop in `ld` (at Python loop
index `i = a.length`): `g = (r[i+1] - np.dot(a, r[1:i+1])) / v`,
`a = np.r_[g, a - g*a[i-1::-1]]`, `v *= 1 - g*g`. -/
def ldStep (r : List ℚ) (st : List ℚ × ℚ) : List ℚ × ℚ :=
  let a := st.1
  let g := (r.getD (a.length + 1) 0
      - ∑ k ∈ Finset.range a.length, a.getD k 0 * r.getD (k + 1) 0) / st.2
  (g :: List.zipWith (fun u w => u - g * w) a a.reverse, st.2 * (1 - g * g))

/-- State of `ld`'s loop after `i` iterations of `for i in range(1, p)`. -/
def ldState (r : List ℚ) : ℕ → List ℚ × ℚ
  | 0 => ldInit r
  | i + 1 => ldStep r (ldState r i)

/-- `ld(r, p)` from the source: Levinson-Durbin, returning
`np.r_[1, -a[::-1]]` after `p - 1` loop iterations. -/
def ld (r : List ℚ) (p : ℕ) : List ℚ :=
  1 :: ((ldState r (p - 1)).1.reverse.map (fun t => -t))

/-- `ld` with every floating-point division's divisor checked: `none`
exactly when some divisor (`r[0]`, or a loop value of `v`) is zero — the
situations in which the float code forms `0/0` or `x/0` and silently
produces NaN/Inf (numpy emits only a warning, no exception). -/
def ldChecked (r : List ℚ) (p : ℕ) : Option (List ℚ) :=
  if r.getD 0 0 = 0 then none
  else
    ((List.range (p - 1)).foldl
        (fun st _ => match st with
          | none => none
          | some s => if s.2 = 0 then none else some (ldStep r s))
        (some (ldInit r))).map
      (fun s => 1 :: (s.1.reverse.map (fun t => -t)))

/-- `lpc(x, p)` from the source. -/
def lpc (x : List ℚ) (p : ℕ) : List ℚ :=
  ld (bac x p) p

/-- `scipy.signal.lfilter(a, [1], x)`: the FIR (all-zero) filter
`y[n] = sum_{j} a[j] * x[n-j]` with zero initial state. -/
def fir (a x : List ℚ) : List ℚ :=
  (List.range x.length).map
    (fun n => ∑ j ∈ Finset.range (n + 1), a.getD j 0 * x.getD (n - j) 0)

/-- Recursion core of the IIR filter: the first argument of the match is
the remaining input, the accumulator holds past outputs most-recent-first. -/
def iirAux (a : List ℚ) : List ℚ → List ℚ → List ℚ
  | [], _ => []
  | xn :: rest, hist =>
    let yn := (xn - ∑ j ∈ Finset.range hist.length,
        a.getD (j + 1) 0 * hist.getD j 0) / a.getD 0 0
    yn :: iirAux a rest (yn :: hist)

/-- `scipy.signal.lfilter([1], a, x)`: the IIR (all-pole) filter
`y[n] = (x[n] - sum_{k≥1} a[k] * y[n-k]) / a[0]` with zero initial state. -/
def iir (a x : List ℚ) : List ℚ :=
  iirAux a x []

/-- The body of `LPC_GS_pshift`'s grain loop at grain start `n`:
extract `w = x[n:n+igs]`, whiten with its own LPC coefficients, resample
the excitation, resynthesize, and accumulate `y[n:n+G] += w * win`.
numpy raises a broadcast `ValueError` when the resynthesized grain's
length differs from the window's (or the slice of `y` is short); this is
modelled by `none`, which aborts the remaining fold as the exception
aborts the loop.  (numpy would instead broadcast when one operand has
length 1; with a window of length `G ≥ 2` a length-1 resynthesized grain
arises only for `G ≤ 2` parameter corners no claim quantifies over, and
every concrete input used below has both lengths `≥ 2`.) -/
def grainStep (f : ℚ) (P : ℕ) (win : List ℚ) (igs : ℕ) (x : List ℚ)
    (acc : Option (List ℚ)) (n : ℕ) : Option (List ℚ) :=
  match acc with
  | none => none
  | some y =>
    let w := (x.drop n).take igs
    let a := lpc w P
    let e := fir a w
    let e2 := resample e f
    let w2 := iir a e2
    if w2.length = win.length ∧ n + win.length ≤ y.length then
      some (addAt y n (List.zipWith (fun u v => u * v) w2 win))
    else none

/-- `LPC_GS_pshift(x, f, G, P, overlap)` from the source: the granular
LPC pitch shifter.  `igs = int(G*f + 0.5)`; grain starts are
`range(0, len(x) - max(igs, G), stride)`. -/
def LPC_GS_pshift (x : List ℚ) (f : ℚ) (G P : ℕ) (overlap : ℚ) :
    Option (List ℚ) :=
  let N := x.length
  let igs : ℕ := (pyInt ((G : ℚ) * f + 1 / 2)).toNat
  let ws := win_taper G overlap
  (rangeStep ((N : ℤ) - ((max igs G : ℕ) : ℤ)) ws.2.toNat).foldl
    (grainStep f P ws.1 igs x) (some (List.replicate N 0))

/-! ## Basic structural lemmas -/

theorem getD_map_range (f : ℕ → ℚ) (n m : ℕ) (h : m < n) :
    ((List.range n).map f).getD m 0 = f m := by
  rw [List.getD_eq_getElem?_getD, List.getElem?_map, List.getElem?_range h,
    Option.map_some', Option.getD_some]

theorem fir_length (a x : List ℚ) : (fir a x).length = x.length := by
  simp [fir]

theorem iirAux_length (a : List ℚ) :
    ∀ e hist : List ℚ, (iirAux a e hist).length = e.length := by
  intro e
  induction e with
  | nil => intro hist; rfl
  | cons xn rest ih => intro hist; simp [iirAux, ih]

theorem iir_length (a x : List ℚ) : (iir a x).length = x.length :=
  iirAux_length a x []

theorem resample_length (x : List ℚ) (f : ℚ) :
    (resample x f).length = (⌊(x.length : ℚ) / f⌋).toNat := by
  rw [resample, List.length_map, List.length_range]

theorem addAt_length (y : List ℚ) (n : ℕ) (v : List ℚ) :
    (addAt y n v).length = y.length := by
  simp [addAt]

theorem bac_length (x : List ℚ) (p : ℕ) : (bac x p).length = p + 1 := by
  simp [bac]

theorem bac_getD (x : List ℚ) (p m : ℕ) (h : m ≤ p) :
    (bac x p).getD m 0 =
      (∑ n ∈ Finset.range (x.length - m), x.getD n 0 * x.getD (n + m) 0)
        / (x.length : ℚ) := by
  rw [bac, getD_map_range _ _ _ (Nat.lt_succ_of_le h)]

/-! ## C4, C10: the autocorrelation estimator -/

/-- **C4**: for every block `x` of length `L` and maximum lag `p < L`,
`bac(x, p)` has length `p+1` and entry `m` equal to
`(1/L) * sum_{k=0}^{L-m-1} x[k]*x[k+m]` for every `m ≤ p` (the biased
estimator, normalizing by `L`). -/
theorem bac_biased_spec (x : List ℚ) (p : ℕ) (hp : p < x.length) :
    (bac x p).length = p + 1 ∧
      ∀ m, m ≤ p →
        (bac x p).getD m 0 =
          (1 / (x.length : ℚ)) *
            ∑ k ∈ Finset.range (x.length - m), x.getD k 0 * x.getD (k + m) 0 := by
  refine ⟨bac_length x p, fun m hm => ?_⟩
  rw [bac_getD x p m hm, one_div, inv_mul_eq_div]

/-- Witness for C4 at `x = [1, 2]`, `p = 1`, `m = 1`. -/
theorem bac_biased_spec_witness :
    (bac [(1 : ℚ), 2] 1).length = 1 + 1 ∧
      (bac [(1 : ℚ), 2] 1).getD 1 0 =
        (1 / (([(1 : ℚ), 2]).length : ℚ)) *
          ∑ k ∈ Finset.range (([(1 : ℚ), 2]).length - 1),
            [(1 : ℚ), 2].getD k 0 * [(1 : ℚ), 2].getD (k + 1) 0 :=
  ⟨(bac_biased_spec [1, 2] 1 (by norm_num)).1,
    (bac_biased_spec [1, 2] 1 (by norm_num)).2 1 le_rfl⟩

/-- **C10** (amended): for every *nonempty* block `x` (`L ≥ 1`) and every
lag bound `p` — also `p ≥ L`, beyond the spec's precondition —
`bac(x, p)` terminates with no out-of-range access, has length `p+1`,
and every entry at a lag `m ≥ L` is `0` (empty inner summation).  At the
empty block the source instead divides every entry by `float(0)`,
producing NaN, not `0` (see the counterexample). -/
theorem bac_safe_any_lag (x : List ℚ) (p : ℕ) (hL : 1 ≤ x.length) :
    (bac x p).length = p + 1 ∧
      ∀ m, m ≤ p → x.length ≤ m → (bac x p).getD m 0 = 0 := by
  refine ⟨bac_length x p, fun m hm hLm => ?_⟩
  rw [bac_getD x p m hm, Nat.sub_eq_zero_of_le hLm]
  simp

/-- **C10** (counterexample): at the empty block `x = []` (`L = 0`) with
`p = 2`, every lag `m = 0, 1, 2` satisfies `m ≥ L`, but the claim's
all-zero entries fail: the source's `r[m] /= float(L)` divides by zero,
so each entry is `0.0/0.0 = NaN` in floats (with only a numpy warning);
the divisor-checked model reports that division. -/
theorem bac_safe_any_lag_cex : bacChecked ([] : List ℚ) 2 = none := by
  rw [bacChecked, if_pos]
  norm_num

/-- Witness for C10 at `x = [1]`, `p = 2`, `m = 2 ≥ L = 1`. -/
theorem bac_safe_any_lag_witness :
    1 ≤ ([(1 : ℚ)]).length ∧
      (bac [(1 : ℚ)] 2).length = 2 + 1 ∧ (bac [(1 : ℚ)] 2).getD 2 0 = 0 :=
  ⟨by norm_num, (bac_safe_any_lag [1] 2 (by norm_num)).1,
    (bac_safe_any_lag [1] 2 (by norm_num)).2 2 le_rfl (by norm_num)⟩

/-! ## C2: the tapered window and its crossfade invariant -/

theorem getD_reverse (l : List ℚ) (j : ℕ) (h : j < l.length) :
    l.reverse.getD j 0 = l.getD (l.length - 1 - j) 0 := by
  rw [List.getD_eq_getElem?_getD, List.getElem?_reverse h,
    List.getD_eq_getElem?_getD]

theorem trap_length (N R : ℕ) (h : 2 * R ≤ N) : (trap N R).length = N := by
  simp [trap]
  omega

theorem trap_getD_ramp (N R j : ℕ) (h : j < R) :
    (trap N R).getD j 0 = (j : ℚ) / (R : ℚ) := by
  rw [trap, List.append_assoc, List.getD_append _ _ 0 j (by simpa using h),
    getD_map_range _ _ _ h]

theorem trap_getD_flat (N R j : ℕ) (h2 : 2 * R ≤ N) (h1 : R ≤ j)
    (hj : j < N - R) : (trap N R).getD j 0 = 1 := by
  rw [trap, List.append_assoc, List.getD_append_right _ _ 0 j (by simpa using h1)]
  simp only [List.length_map, List.length_range]
  rw [List.getD_append _ _ 0 _ (by simp only [List.length_replicate]; omega),
    List.getD_eq_getElem?_getD, List.getElem?_replicate, if_pos (by omega)]
  rfl

theorem trap_getD_desc (N R j : ℕ) (h2 : 2 * R ≤ N) (h1 : N - R ≤ j)
    (hj : j < N) :
    (trap N R).getD j 0 = ((N - 1 - j : ℕ) : ℚ) / (R : ℚ) := by
  rw [trap, List.append_assoc,
    List.getD_append_right _ _ 0 j (by simp only [List.length_map, List.length_range]; omega)]
  simp only [List.length_map, List.length_range]
  rw [List.getD_append_right _ _ 0 _ (by simp only [List.length_replicate]; omega)]
  simp only [List.length_replicate]
  rw [getD_reverse _ _ (by simp only [List.length_map, List.length_range]; omega)]
  simp only [List.length_map, List.length_range]
  rw [getD_map_range _ _ _ (by omega)]
  congr 2
  omega

/-- **C2** (amended): the crossfade-unity invariant of `win_taper(N, a)`
holds on the overlapping span whenever the computed ramp length
`R = int(N*a/2)` satisfies `1 ≤ R` and `2*R < N`; it fails when `R = 0`
(the single overlapping sample sums to 2) and when `2*R = N` (no flat
top, see the counterexample). -/
theorem win_taper_unity (N : ℕ) (a : ℚ) (h0 : 0 ≤ a) (h1 : a ≤ 1)
    (hR1 : 1 ≤ (pyInt ((N : ℚ) * a / 2)).toNat)
    (hRN : 2 * (pyInt ((N : ℚ) * a / 2)).toNat < N) :
    ∀ i, ((win_taper N a).2).toNat ≤ i → i < N →
      (win_taper N a).1.getD i 0
        + (win_taper N a).1.getD (i - ((win_taper N a).2).toNat) 0 = 1 := by
  set R := (pyInt ((N : ℚ) * a / 2)).toNat with hRdef
  have hw1 : (win_taper N a).1 = trap N R := rfl
  have hw2 : (win_taper N a).2 = (N : ℤ) - (R : ℤ) - 1 := rfl
  have hst : ((win_taper N a).2).toNat = N - R - 1 := by
    rw [hw2]; omega
  have hRQ : (R : ℚ) ≠ 0 := Nat.cast_ne_zero.mpr (by omega)
  intro i hi1 hi2
  rw [hw1, hst] at *
  by_cases hj0 : i = N - R - 1
  · subst hj0
    rw [trap_getD_flat N R _ (by omega) (by omega) (by omega)]
    rw [Nat.sub_self, trap_getD_ramp N R 0 (by omega)]
    simp
  · by_cases hjR : i = N - 1
    · subst hjR
      rw [trap_getD_desc N R _ (by omega) (by omega) (by omega)]
      rw [trap_getD_flat N R _ (by omega) (by omega) (by omega)]
      rw [Nat.sub_self]
      simp
    · rw [trap_getD_desc N R i (by omega) (by omega) (by omega)]
      rw [trap_getD_ramp N R _ (by omega)]
      rw [div_add_div_same, ← Nat.cast_add,
        show N - 1 - i + (i - (N - R - 1)) = R by omega, div_self hRQ]

/-- **C2** (counterexample): at `N = 4`, `a = 1` the computed ramp is
`R = 2`, the window is `[0, 1/2, 1/2, 0]` with `stride = 1`, and the
overlap index `i = 1` sums to `1/2`, not `1`. -/
theorem win_taper_unity_cex :
    ¬ (∀ i, ((win_taper 4 1).2).toNat ≤ i → i < 4 →
        (win_taper 4 1).1.getD i 0
          + (win_taper 4 1).1.getD (i - ((win_taper 4 1).2).toNat) 0 = 1) := by
  intro h
  have hR : pyInt (((4 : ℕ) : ℚ) * 1 / 2) = 2 := by
    rw [pyInt, if_pos (by norm_num)]
    norm_num
  have hp1 : (win_taper 4 1).1 = trap 4 2 := by
    simp only [win_taper]
    rw [hR]
    rfl
  have hp2 : ((win_taper 4 1).2).toNat = 1 := by
    simp only [win_taper]
    rw [hR]
    decide
  have h1 := h 1 (by rw [hp2]) (by norm_num)
  rw [hp1, hp2, trap_getD_ramp 4 2 1 (by norm_num), Nat.sub_self,
    trap_getD_ramp 4 2 0 (by norm_num)] at h1
  norm_num at h1

/-- Witness for C2 at `N = 8`, `a = 1/2` (so `R = 2`, `stride = 5`),
overlap index `i = 6`. -/
theorem win_taper_unity_witness :
    (0 : ℚ) ≤ 1 / 2 ∧ (1 / 2 : ℚ) ≤ 1 ∧
      1 ≤ (pyInt (((8 : ℕ) : ℚ) * (1 / 2) / 2)).toNat ∧
      2 * (pyInt (((8 : ℕ) : ℚ) * (1 / 2) / 2)).toNat < 8 ∧
      (win_taper 8 (1 / 2)).1.getD 6 0
        + (win_taper 8 (1 / 2)).1.getD (6 - ((win_taper 8 (1 / 2)).2).toNat) 0 = 1 := by
  have hR : pyInt (((8 : ℕ) : ℚ) * (1 / 2) / 2) = 2 := by
    rw [pyInt, if_pos (by norm_num)]
    norm_num
  have hp2 : ((win_taper 8 (1 / 2)).2).toNat = 5 := by
    simp only [win_taper]
    rw [hR]
    decide
  refine ⟨by norm_num, by norm_num, by rw [hR]; decide, by rw [hR]; decide,
    win_taper_unity 8 (1 / 2) (by norm_num) (by norm_num)
      (by rw [hR]; decide) (by rw [hR]; decide) 6 (by rw [hp2]; norm_num) (by norm_num)⟩

/-! ## C7: the fractional interpolator -/

theorem get?_of_lt (x : List ℚ) (m : ℕ) (h : m < x.length) :
    x.get? m = some (x.getD m 0) := by
  rw [List.get?_eq_getElem?, List.getElem?_eq_getElem h,
    List.getD_eq_getElem?_getD, List.getElem?_eq_getElem h]
  rfl

theorem pyGet?_nonneg_lt (x : List ℚ) (n : ℤ) (hn : 0 ≤ n)
    (h : n < (x.length : ℤ)) : pyGet? x n = some (x.getD n.toNat 0) := by
  rw [pyGet?]
  simp only [if_neg (not_lt.mpr hn)]
  rw [if_pos ⟨hn, h⟩, get?_of_lt x n.toNat (by omega)]

theorem pyGet?_nonneg_ge (x : List ℚ) (n : ℤ) (hn : 0 ≤ n)
    (h : (x.length : ℤ) ≤ n) : pyGet? x n = none := by
  rw [pyGet?]
  simp only [if_neg (not_lt.mpr hn)]
  rw [if_neg]
  omega

/-- **C7** (amended): for every `t ≥ 0`, `subsample(x, t)` returns
`(1-frac)*x[n] + frac*x[n+1]` with `n = floor(t)`, `frac = t - n` when
both indices are in range, the `(1-frac)*x[n]` term alone when only `n`
is in range, and `0` when `n` is out of range.  (For `t < 0` the source
truncates toward zero and Python indexing wraps negative indices, so the
claimed zero-result does not hold there; see the counterexample.) -/
theorem subsample_spec (x : List ℚ) (t : ℚ) (ht : 0 ≤ t) :
    subsample x t =
      if ⌊t⌋.toNat + 1 < x.length then
        (1 - (t - (⌊t⌋ : ℚ))) * x.getD ⌊t⌋.toNat 0
          + (t - (⌊t⌋ : ℚ)) * x.getD (⌊t⌋.toNat + 1) 0
      else if ⌊t⌋.toNat < x.length then
        (1 - (t - (⌊t⌋ : ℚ))) * x.getD ⌊t⌋.toNat 0
      else 0 := by
  have hn : pyInt t = ⌊t⌋ := if_pos ht
  have h0 : (0 : ℤ) ≤ ⌊t⌋ := Int.floor_nonneg.mpr ht
  rw [subsample, hn]
  by_cases hA : ⌊t⌋.toNat + 1 < x.length
  · rw [pyGet?_nonneg_lt x ⌊t⌋ h0 (by omega),
      pyGet?_nonneg_lt x (⌊t⌋ + 1) (by omega) (by omega),
      if_pos hA, show (⌊t⌋ + 1).toNat = ⌊t⌋.toNat + 1 by omega]
    ring_nf
  · by_cases hB : ⌊t⌋.toNat < x.length
    · rw [pyGet?_nonneg_lt x ⌊t⌋ h0 (by omega),
        pyGet?_nonneg_ge x (⌊t⌋ + 1) (by omega) (by omega),
        if_neg hA, if_pos hB]
    · rw [pyGet?_nonneg_ge x ⌊t⌋ h0 (by omega), if_neg hA, if_neg hB]

/-- **C7** (counterexample): at `t = -1/2` on `x = [1]` the source
truncates `int(-1/2) = 0` and computes the fallback `a * x[0]` with
`a = 3/2`, returning `3/2 ≠ 0`, where the claim demands `0` for every
negative `t`. -/
theorem subsample_negative_cex :
    subsample [(1 : ℚ)] (-1/2) = 3/2 ∧ (3/2 : ℚ) ≠ 0 := by
  constructor
  · have h : pyInt (-1/2 : ℚ) = 0 := by
      rw [pyInt, if_neg (by norm_num)]
      norm_num
    simp only [subsample, h, pyGet?]
    norm_num
  · norm_num

/-- Witness for C7 at `x = [1, 2]`, `t = 1/2`: both indices in range,
result `(1 - 1/2)*1 + (1/2)*2 = 3/2`. -/
theorem subsample_spec_witness :
    (0 : ℚ) ≤ 1/2 ∧ subsample [(1 : ℚ), 2] (1/2) = 3/2 := by
  refine ⟨by norm_num, ?_⟩
  have h := subsample_spec [(1 : ℚ), 2] (1/2) (by norm_num)
  have hf : ⌊(1/2 : ℚ)⌋ = 0 := by norm_num
  rw [hf] at h
  rw [if_pos (by decide)] at h
  rw [h]
  norm_num

/-! ## C3: whiten / resynthesize round trip -/

theorem getD_take (l : List ℚ) (n m : ℕ) (h : m < n) :
    (l.take n).getD m 0 = l.getD m 0 := by
  rw [List.getD_eq_getElem?_getD, List.getD_eq_getElem?_getD, List.getElem?_take]
  simp [h]

theorem fir_getD (a x : List ℚ) (n : ℕ) (h : n < x.length) :
    (fir a x).getD n 0 =
      ∑ j ∈ Finset.range (n + 1), a.getD j 0 * x.getD (n - j) 0 := by
  rw [fir, getD_map_range _ _ _ h]

theorem iirAux_getD (a : List ℚ) :
    ∀ (e hist : List ℚ) (n : ℕ), n < e.length →
      (iirAux a e hist).getD n 0 =
        (e.getD n 0 -
            ∑ j ∈ Finset.range (((iirAux a e hist).take n).reverse ++ hist).length,
              a.getD (j + 1) 0
                * (((iirAux a e hist).take n).reverse ++ hist).getD j 0)
          / a.getD 0 0 := by
  intro e
  induction e with
  | nil => intro hist n hn; simp at hn
  | cons xn rest ih =>
    intro hist n hn
    match n with
    | 0 => simp [iirAux]
    | m + 1 =>
      have hm : m < rest.length := by simpa using hn
      calc (iirAux a (xn :: rest) hist).getD (m + 1) 0
          = (iirAux a rest (_ :: hist)).getD m 0 := rfl
        _ = _ := by
            rw [ih (_ :: hist) m hm]
            congr 2 <;>
              rw [show iirAux a (xn :: rest) hist = _ :: iirAux a rest (_ :: hist) from rfl,
                List.take_succ_cons, List.reverse_cons, List.append_assoc,
                List.singleton_append]

theorem iir_getD (a x : List ℚ) (n : ℕ) (hn : n < x.length) :
    (iir a x).getD n 0 =
      (x.getD n 0 -
          ∑ m ∈ Finset.range n, a.getD (n - m) 0 * (iir a x).getD m 0)
        / a.getD 0 0 := by
  have hlen : ((iir a x).take n).length = n := by
    rw [List.length_take, iir_length]
    omega
  rw [iir, iirAux_getD a x [] n hn, List.append_nil]
  rw [← iir]
  congr 1
  congr 1
  rw [List.length_reverse, hlen]
  calc ∑ j ∈ Finset.range n, a.getD (j + 1) 0 * ((iir a x).take n).reverse.getD j 0
      = ∑ j ∈ Finset.range n,
          a.getD (n - (n - 1 - j)) 0 * (iir a x).getD (n - 1 - j) 0 := by
        refine Finset.sum_congr rfl (fun j hj => ?_)
        have hjn : j < n := Finset.mem_range.mp hj
        rw [getD_reverse _ _ (by rw [hlen]; omega), hlen,
          getD_take _ _ _ (by omega), show n - (n - 1 - j) = j + 1 by omega]
    _ = ∑ m ∈ Finset.range n, a.getD (n - m) 0 * (iir a x).getD m 0 :=
        Finset.sum_range_reflect (fun m => a.getD (n - m) 0 * (iir a x).getD m 0) n

/-- **C3**: the whitening FIR filter (`lfilter(a, [1], ·)`) followed by
the all-pole synthesis filter (`lfilter([1], a, ·)`) with the same
coefficient vector `a`, `a[0] = 1`, and zero initial state reproduces the
input block exactly. -/
theorem iir_fir_roundtrip (a x : List ℚ) (h : a.getD 0 0 = 1) :
    iir a (fir a x) = x := by
  have key : ∀ n, n < x.length → (iir a (fir a x)).getD n 0 = x.getD n 0 := by
    intro n
    induction n using Nat.strong_induction_on with
    | _ n ih =>
      intro hn
      rw [iir_getD a (fir a x) n (by rw [fir_length]; exact hn),
        fir_getD a x n hn]
      have refl1 : ∑ j ∈ Finset.range (n + 1), a.getD j 0 * x.getD (n - j) 0
          = ∑ m ∈ Finset.range (n + 1), a.getD (n - m) 0 * x.getD m 0 := by
        calc ∑ j ∈ Finset.range (n + 1), a.getD j 0 * x.getD (n - j) 0
            = ∑ j ∈ Finset.range (n + 1),
                a.getD (n - (n + 1 - 1 - j)) 0 * x.getD (n + 1 - 1 - j) 0 := by
              refine Finset.sum_congr rfl (fun j hj => ?_)
              have hjn : j < n + 1 := Finset.mem_range.mp hj
              rw [show n + 1 - 1 - j = n - j by omega,
                show n - (n - j) = j by omega]
          _ = _ :=
              Finset.sum_range_reflect
                (fun m => a.getD (n - m) 0 * x.getD m 0) (n + 1)
      have congr2 : ∑ m ∈ Finset.range n, a.getD (n - m) 0 * (iir a (fir a x)).getD m 0
          = ∑ m ∈ Finset.range n, a.getD (n - m) 0 * x.getD m 0 :=
        Finset.sum_congr rfl (fun m hm => by
          have hmn : m < n := Finset.mem_range.mp hm
          rw [ih m hmn (by omega)])
      rw [refl1, congr2, Finset.sum_range_succ, Nat.sub_self, h]
      ring
  refine List.ext_getElem ?_ (fun i h1 h2 => ?_)
  · rw [iir_length, fir_length]
  · have h2x : i < x.length := h2
    have := key i h2x
    rwa [List.getD_eq_getElem?_getD, List.getElem?_eq_getElem h1,
      List.getD_eq_getElem?_getD, List.getElem?_eq_getElem h2,
      Option.getD_some, Option.getD_some] at this

/-- Witness for C3 at `a = [1, -1/2]`, `x = [1, 2, 3]`:
`fir` gives `[1, 3/2, 2]` and `iir` recovers `[1, 2, 3]`. -/
theorem iir_fir_roundtrip_witness :
    ([(1 : ℚ), -1/2].getD 0 0 = 1) ∧
      iir [(1 : ℚ), -1/2] (fir [(1 : ℚ), -1/2] [(1 : ℚ), 2, 3]) = [1, 2, 3] :=
  ⟨by norm_num, iir_fir_roundtrip [(1 : ℚ), -1/2] [(1 : ℚ), 2, 3] (by norm_num)⟩

/-! ## C6, C8, C9: missing error handling (code_bug demonstrations) -/

/-- **C6**: on a degenerate (all-zero) autocorrelation vector the
Levinson-Durbin solver's very first division has divisor `r[0] = 0`
(float code: `0/0 = NaN`), and `ld` contains no detection, no clamping,
no `DegenerateFilterError`, and the engine no identity-filter fallback:
the divisor-checked model reports the silent zero-divisor division. -/
theorem ld_zero_divisor_unchecked :
    ldChecked (List.replicate 3 (0 : ℚ)) 2 = none := by
  norm_num [ldChecked, List.replicate]

/-- **C8**: for the all-zero input (x = 24 zeros, `f = 1`, `G = 8`,
`P = 2`), the first grain `x[0:8]` is all-zero, its autocorrelation is
the zero vector, and the solve divides by the zero `r[0]`: in floats the
resulting NaN coefficients propagate into the output, which is therefore
not the claimed all-zero signal (no exception is raised). -/
theorem pshift_zero_input_nan :
    bac (List.replicate 8 (0 : ℚ)) 2 = List.replicate 3 0 ∧
      ldChecked (bac (List.replicate 8 (0 : ℚ)) 2) 2 = none := by
  have hz : ∀ n : ℕ, (List.replicate 8 (0 : ℚ)).getD n 0 = 0 := by
    intro n
    rw [List.getD_eq_getElem?_getD, List.getElem?_replicate]
    split <;> rfl
  have hs : ∀ m : ℕ, (∑ n ∈ Finset.range (8 - m),
      (List.replicate 8 (0 : ℚ)).getD n 0 * (List.replicate 8 (0 : ℚ)).getD (n + m) 0) = 0 :=
    fun m => Finset.sum_eq_zero (fun n _ => by rw [hz, zero_mul])
  have hb : bac (List.replicate 8 (0 : ℚ)) 2 = List.replicate 3 0 := by
    simp only [bac, List.length_replicate]
    rw [show List.range 3 = [0, 1, 2] from rfl]
    simp only [List.map_cons, List.map_nil, hs, zero_div]
    rfl
  refine ⟨hb, ?_⟩
  rw [hb]
  norm_num [ldChecked, List.replicate]

/-- **C9**: the entry point performs no parameter validation: called with
the invalid grain size `G = 0` (and `f = 1`, `P = 2`, `overlap = 1/5`) on
a length-5 signal it raises nothing and silently returns the all-zero
signal (`win_taper(0, ·)` yields `stride = -1`, so the grain loop is
empty), where the claim demands an `InvalidParameterError` before any
processing. -/
theorem pshift_no_param_validation :
    LPC_GS_pshift (List.replicate 5 (1 : ℚ)) 1 0 2 (1/5)
      = some (List.replicate 5 0) := by
  have h0 : pyInt (0 : ℚ) = 0 := by
    rw [pyInt, if_pos (by norm_num)]
    norm_num
  have h1 : pyInt ((1 : ℚ)/2) = 0 := by
    rw [pyInt, if_pos (by norm_num)]
    norm_num
  simp only [LPC_GS_pshift, win_taper, trap, List.length_replicate]
  norm_num [h0, h1, rangeStep]

/-! ## C1: length behaviour of the granular engine -/

theorem rangeStep_lt (stop : ℤ) (s : ℕ) (n : ℕ) (hn : n ∈ rangeStep stop s) :
    (n : ℤ) < stop := by
  unfold rangeStep at hn
  by_cases hs : s = 0
  · rw [if_pos hs] at hn
    simp at hn
  · rw [if_neg hs] at hn
    obtain ⟨k, hk, rfl⟩ := List.mem_map.mp hn
    have hk1 : k + 1 ≤ (stop.toNat + s - 1) / s := List.mem_range.mp hk
    have hk2 : (k + 1) * s ≤ stop.toNat + s - 1 :=
      (Nat.le_div_iff_mul_le (by omega)).mp hk1
    rw [add_one_mul] at hk2
    omega

theorem grainStep_some (f : ℚ) (P : ℕ) (win : List ℚ) (igs : ℕ)
    (x y : List ℚ) (n : ℕ)
    (h1 : ((x.drop n).take igs).length = igs)
    (h2 : (⌊(igs : ℚ) / f⌋).toNat = win.length)
    (h3 : n + win.length ≤ y.length) :
    grainStep f P win igs x (some y) n
      = some (addAt y n (List.zipWith (fun u v => u * v)
          (iir (lpc ((x.drop n).take igs) P)
            (resample (fir (lpc ((x.drop n).take igs) P) ((x.drop n).take igs)) f))
          win)) := by
  simp only [grainStep]
  rw [if_pos]
  refine ⟨?_, h3⟩
  rw [iir_length, resample_length, fir_length, h1, h2]

theorem pshift_foldl_length (f : ℚ) (P : ℕ) (win : List ℚ) (igs : ℕ)
    (x : List ℚ) (hres : (⌊(igs : ℚ) / f⌋).toNat = win.length) :
    ∀ (l : List ℕ) (y : List ℚ),
      (∀ n ∈ l, n + igs ≤ x.length ∧ n + win.length ≤ x.length) →
      y.length = x.length →
      ∃ z, l.foldl (grainStep f P win igs x) (some y) = some z
        ∧ z.length = x.length := by
  intro l
  induction l with
  | nil => exact fun y _ hy => ⟨y, rfl, hy⟩
  | cons n rest ih =>
    intro y hl hy
    have hn := hl n (List.mem_cons_self n rest)
    have hw : ((x.drop n).take igs).length = igs := by
      rw [List.length_take, List.length_drop]
      omega
    rw [List.foldl_cons,
      grainStep_some f P win igs x y n hw hres (by omega)]
    exact ih _ (fun m hm => hl m (List.mem_cons_of_mem n hm))
      (by rw [addAt_length, hy])

/-- **C1** (amended): for every valid parameter set (`f > 0`, `G > 0`,
`0 < P < G`, `overlap ∈ [0,1)`) *such that the resampled grain length
`floor(igs/f)` with `igs = int(G*f + 0.5)` equals `G`*, the pitch shifter
returns a sequence of exactly the length of `x`.  Without that extra
condition the per-grain accumulation `y[n:n+G] += w * win` raises a numpy
broadcast error (see the counterexample), so the claim as stated fails. -/
theorem LPC_GS_pshift_length_preserved (x : List ℚ) (f : ℚ) (G P : ℕ)
    (overlap : ℚ) (hf : 0 < f) (hG : 0 < G) (hP0 : 0 < P) (hPG : P < G)
    (hov0 : 0 ≤ overlap) (hov1 : overlap < 1)
    (hres : (⌊(((pyInt ((G : ℚ) * f + 1 / 2)).toNat : ℚ)) / f⌋).toNat = G) :
    ∃ y, LPC_GS_pshift x f G P overlap = some y ∧ y.length = x.length := by
  set igs : ℕ := (pyInt ((G : ℚ) * f + 1 / 2)).toNat with higs
  set R : ℕ := (pyInt ((G : ℚ) * overlap / 2)).toNat with hRdef
  -- 2*R < G
  have hGQ : (0 : ℚ) < (G : ℚ) := by exact_mod_cast hG
  have harg : (0 : ℚ) ≤ (G : ℚ) * overlap / 2 := by positivity
  have hpy : pyInt ((G : ℚ) * overlap / 2) = ⌊(G : ℚ) * overlap / 2⌋ := if_pos harg
  have hfl : (⌊(G : ℚ) * overlap / 2⌋ : ℚ) ≤ (G : ℚ) * overlap / 2 := Int.floor_le _
  have hlt : (G : ℚ) * overlap < (G : ℚ) := by
    calc (G : ℚ) * overlap < (G : ℚ) * 1 := by
          exact mul_lt_mul_of_pos_left hov1 hGQ
      _ = (G : ℚ) := mul_one _
  have h2RZ : 2 * ⌊(G : ℚ) * overlap / 2⌋ < (G : ℤ) := by
    have : (2 * ⌊(G : ℚ) * overlap / 2⌋ : ℚ) < (G : ℚ) := by
      linarith
    exact_mod_cast this
  have h2R : 2 * R < G := by
    rw [hRdef, hpy]
    omega
  -- window facts
  have hw1 : (win_taper G overlap).1 = trap G R := rfl
  have hwinlen : (win_taper G overlap).1.length = G := by
    rw [hw1, trap_length G R (by omega)]
  have hstride : ((win_taper G overlap).2).toNat = G - R - 1 := by
    show ((G : ℤ) - (R : ℤ) - 1).toNat = G - R - 1
    omega
  have hres' : (⌊(igs : ℚ) / f⌋).toNat = (win_taper G overlap).1.length := by
    rw [hwinlen]
    exact hres
  obtain ⟨z, hz1, hz2⟩ := pshift_foldl_length f P (win_taper G overlap).1 igs x hres'
    (rangeStep ((x.length : ℤ) - ((max igs G : ℕ) : ℤ)) ((win_taper G overlap).2).toNat)
    (List.replicate x.length 0)
    (fun n hn => by
      have := rangeStep_lt _ _ n hn
      rw [hwinlen]
      omega)
    (List.length_replicate _ _)
  exact ⟨z, hz1, hz2⟩

/-- **C1** (counterexample): at `f = 7/20`, `G = 10`, `P = 2`,
`overlap = 1/5` on an 11-sample input, `igs = int(10*(7/20)+0.5) = 4` and
the resampled grain has `floor(4/(7/20)) = 11` samples, so the body
`y[n:n+G] += w * win` multiplies arrays of lengths 11 and 10: numpy
raises a broadcast `ValueError` and no sequence is returned at all. -/
theorem LPC_GS_pshift_length_cex :
    LPC_GS_pshift (List.replicate 11 (1 : ℚ)) (7/20) 10 2 (1/5) = none := by
  have higs0 : pyInt (((10 : ℕ) : ℚ) * (7/20) + 1 / 2) = 4 := by
    rw [pyInt, if_pos (by norm_num)]
    norm_num
  have higs : (pyInt (((10 : ℕ) : ℚ) * (7/20) + 1 / 2)).toNat = 4 := by
    rw [higs0]
    rfl
  have hR0 : pyInt (((10 : ℕ) : ℚ) * (1/5) / 2) = 1 := by
    rw [pyInt, if_pos (by norm_num)]
    norm_num
  have hR : (pyInt (((10 : ℕ) : ℚ) * (1/5) / 2)).toNat = 1 := by
    rw [hR0]
    rfl
  have hwin : (win_taper 10 (1/5)).1 = trap 10 1 := by
    simp only [win_taper, hR]
  have hwinlen : (win_taper 10 (1/5)).1.length = 10 := by
    rw [hwin, trap_length 10 1 (by norm_num)]
  have hstride : ((win_taper 10 (1/5)).2).toNat = 8 := by
    simp only [win_taper, hR]
    decide
  have hsteps : rangeStep (((List.replicate 11 (1:ℚ)).length : ℤ)
      - ((max 4 10 : ℕ) : ℤ)) 8 = [0] := by
    rw [List.length_replicate]
    decide
  have hwlen : (((List.replicate 11 (1:ℚ)).drop 0).take 4).length = 4 := by
    decide
  have hnone : grainStep (7/20) 2 (win_taper 10 (1/5)).1 4
      (List.replicate 11 (1:ℚ)) (some (List.replicate 11 0)) 0 = none := by
    simp only [grainStep]
    rw [if_neg]
    intro hc
    have h1 := hc.1
    rw [iir_length, resample_length, fir_length, hwlen, hwinlen] at h1
    have hfl : ⌊(((4:ℕ) : ℚ)) / (7/20)⌋ = 11 := by norm_num
    rw [hfl] at h1
    exact absurd h1 (by decide)
  show (rangeStep (((List.replicate 11 (1:ℚ)).length : ℤ)
      - ((max ((pyInt (((10:ℕ) : ℚ) * (7/20) + 1 / 2)).toNat) 10 : ℕ) : ℤ))
      ((win_taper 10 (1/5)).2).toNat).foldl
      (grainStep (7/20) 2 (win_taper 10 (1/5)).1
        ((pyInt (((10:ℕ) : ℚ) * (7/20) + 1 / 2)).toNat) (List.replicate 11 (1:ℚ)))
      (some (List.replicate 11 0)) = none
  rw [higs, hstride, hsteps, List.foldl_cons, hnone]
  rfl

/-- Witness for C1 at `x` = 12 ones, `f = 3/2`, `G = 4`, `P = 2`,
`overlap = 1/5`: here `igs = 6` and `floor(6/(3/2)) = 4 = G`, and the
output has the input's length 12. -/
theorem LPC_GS_pshift_length_preserved_witness :
    (0 : ℚ) < 3/2 ∧ 0 < 4 ∧ 0 < 2 ∧ 2 < 4 ∧ (0 : ℚ) ≤ 1/5 ∧ (1/5 : ℚ) < 1 ∧
      ∃ y, LPC_GS_pshift (List.replicate 12 (1 : ℚ)) (3/2) 4 2 (1/5) = some y
        ∧ y.length = 12 := by
  have higs0 : pyInt (((4 : ℕ) : ℚ) * (3/2) + 1 / 2) = 6 := by
    rw [pyInt, if_pos (by norm_num)]
    norm_num
  have hres : (⌊(((pyInt (((4 : ℕ) : ℚ) * (3/2) + 1 / 2)).toNat : ℕ) : ℚ) / (3/2)⌋).toNat = 4 := by
    rw [higs0, show (((6 : ℤ).toNat : ℕ) : ℚ) = 6 from by rw [show (6 : ℤ).toNat = 6 from rfl]; norm_num,
      show ⌊(6 : ℚ) / (3/2)⌋ = 4 from by norm_num]
    rfl
  obtain ⟨y, hy1, hy2⟩ := LPC_GS_pshift_length_preserved (List.replicate 12 (1 : ℚ))
    (3/2) 4 2 (1/5) (by norm_num) (by norm_num) (by norm_num) (by norm_num)
    (by norm_num) (by norm_num) hres
  exact ⟨by norm_num, by norm_num, by norm_num, by norm_num, by norm_num,
    by norm_num, y, hy1, by rw [hy2, List.length_replicate]⟩

/-! ## C5: the Levinson-Durbin solver and the Toeplitz system -/
/-- Coefficient `a_j` of the most-recent-first internal list of `ld`. -/
def coeffAt (A : List ℚ) (j : ℕ) : ℚ := A.getD (A.length - j) 0

theorem ldState_fst_length (r : List ℚ) : ∀ i, (ldState r i).1.length = i + 1 := by
  intro i
  induction i with
  | zero => rfl
  | succ i ih =>
    show (ldStep r (ldState r i)).1.length = i + 2
    simp only [ldStep, List.length_cons, List.length_zipWith, List.length_reverse, ih]
    omega

theorem getD_zip_rev (A : List ℚ) (g : ℚ) (t : ℕ) (ht : t < A.length) :
    (List.zipWith (fun u w => u - g * w) A A.reverse).getD t 0
      = A.getD t 0 - g * A.getD (A.length - 1 - t) 0 := by
  have hlen : (List.zipWith (fun u w => u - g * w) A A.reverse).length = A.length := by
    rw [List.length_zipWith, List.length_reverse, min_self]
  rw [List.getD_eq_getElem?_getD, List.getElem?_eq_getElem (by rw [hlen]; exact ht),
    Option.getD_some, List.getElem_zipWith, List.getElem_reverse,
    List.getD_eq_getElem?_getD, List.getElem?_eq_getElem ht, Option.getD_some,
    List.getD_eq_getElem?_getD, List.getElem?_eq_getElem (by omega), Option.getD_some]

theorem sum_rev_pair (m : ℕ) (u v : ℕ → ℚ) :
    ∑ k ∈ Finset.range m, u (m - k) * v (k + 1)
      = ∑ k ∈ Finset.range m, u (k + 1) * v (m - k) := by
  calc ∑ k ∈ Finset.range m, u (m - k) * v (k + 1)
      = ∑ k ∈ Finset.range m, (fun j => u (j + 1) * v (m - j)) (m - 1 - k) := by
        refine Finset.sum_congr rfl (fun k hk => ?_)
        have hkm := Finset.mem_range.mp hk
        simp only
        rw [show m - 1 - k + 1 = m - k by omega, show m - (m - 1 - k) = k + 1 by omega]
    _ = _ := by simpa using Finset.sum_range_reflect (fun j => u (j + 1) * v (m - j)) m

/-- The reflection coefficient computed by `ldStep`. -/
def ldG (r : List ℚ) (st : List ℚ × ℚ) : ℚ :=
  (r.getD (st.1.length + 1) 0
    - ∑ k ∈ Finset.range st.1.length, st.1.getD k 0 * r.getD (k + 1) 0) / st.2

theorem ldStep_eq (r : List ℚ) (st : List ℚ × ℚ) :
    ldStep r st = (ldG r st :: List.zipWith (fun u w => u - ldG r st * w) st.1 st.1.reverse,
      st.2 * (1 - ldG r st * ldG r st)) := rfl

theorem coeffAt_getD (A : List ℚ) (k : ℕ) (hk : k < A.length) :
    A.getD k 0 = coeffAt A (A.length - k) := by
  unfold coeffAt
  congr 1
  omega

theorem ldStep_len (r : List ℚ) (st : List ℚ × ℚ) :
    (ldStep r st).1.length = st.1.length + 1 := by
  rw [ldStep_eq, List.length_cons, List.length_zipWith, List.length_reverse, min_self]

theorem ldStep_coeff_top (r : List ℚ) (st : List ℚ × ℚ) :
    coeffAt (ldStep r st).1 (st.1.length + 1) = ldG r st := by
  unfold coeffAt
  rw [ldStep_len, Nat.sub_self, ldStep_eq]
  rfl

theorem ldStep_coeff_low (r : List ℚ) (st : List ℚ × ℚ) (j : ℕ)
    (hj1 : 1 ≤ j) (hjm : j ≤ st.1.length) :
    coeffAt (ldStep r st).1 j
      = coeffAt st.1 j - ldG r st * coeffAt st.1 (st.1.length + 1 - j) := by
  unfold coeffAt
  rw [ldStep_len, ldStep_eq,
    show st.1.length + 1 - j = (st.1.length - j) + 1 by omega,
    List.getD_cons_succ,
    getD_zip_rev st.1 (ldG r st) (st.1.length - j) (by omega)]
  congr 3
  omega

theorem ldState_yw (r : List ℚ) (h0 : r.getD 0 0 ≠ 0) :
    ∀ i, (∀ j, j < i → (ldState r j).2 ≠ 0) →
      (∀ j, 1 ≤ j → j ≤ i + 1 →
        ∑ k ∈ Finset.range (i + 1),
          coeffAt (ldState r i).1 (k + 1) * r.getD (Nat.dist j (k + 1)) 0
          = r.getD j 0) ∧
      (ldState r i).2
        = r.getD 0 0 - ∑ k ∈ Finset.range (i + 1),
            coeffAt (ldState r i).1 (k + 1) * r.getD (k + 1) 0 := by
  have hdist : ∀ a b : ℕ, Nat.dist a b = a - b + (b - a) := fun a b => rfl
  have hc1 : coeffAt (ldInit r).1 1 = r.getD 1 0 / r.getD 0 0 := rfl
  intro i
  induction i with
  | zero =>
    intro _
    constructor
    · intro j hj1 hj2
      have hj : j = 1 := le_antisymm hj2 hj1
      subst hj
      rw [Finset.sum_range_one]
      show coeffAt (ldInit r).1 1 * r.getD (Nat.dist 1 1) 0 = r.getD 1 0
      rw [hc1, Nat.dist_self]
      exact div_mul_cancel₀ _ h0
    · rw [Finset.sum_range_one]
      show (1 - r.getD 1 0 / r.getD 0 0 * (r.getD 1 0 / r.getD 0 0)) * r.getD 0 0
        = r.getD 0 0 - coeffAt (ldInit r).1 1 * r.getD 1 0
      rw [hc1]
      have hg : r.getD 1 0 / r.getD 0 0 * r.getD 0 0 = r.getD 1 0 :=
        div_mul_cancel₀ _ h0
      calc (1 - r.getD 1 0 / r.getD 0 0 * (r.getD 1 0 / r.getD 0 0)) * r.getD 0 0
          = r.getD 0 0 - r.getD 1 0 / r.getD 0 0
              * (r.getD 1 0 / r.getD 0 0 * r.getD 0 0) := by ring
        _ = _ := by rw [hg]
  | succ i ih =>
    intro hv
    have hvi : (ldState r i).2 ≠ 0 := hv i (Nat.lt_succ_self i)
    obtain ⟨ihYW, ihV⟩ := ih (fun j hj => hv j (by omega))
    set st := ldState r i with hst
    set m := i + 1 with hm
    have hlen : st.1.length = m := ldState_fst_length r i
    set g := ldG r st with hgdef
    have hstep : ldState r (i + 1) = ldStep r st := rfl
    have htop : coeffAt (ldStep r st).1 (m + 1) = g := by
      rw [← hlen]
      exact ldStep_coeff_top r st
    have hlow : ∀ j, 1 ≤ j → j ≤ m →
        coeffAt (ldStep r st).1 j = coeffAt st.1 j - g * coeffAt st.1 (m + 1 - j) := by
      intro j hj1 hjm
      rw [← hlen] at hjm ⊢
      exact ldStep_coeff_low r st j hj1 hjm
    have hdot : ∑ k ∈ Finset.range m, st.1.getD k 0 * r.getD (k + 1) 0
        = ∑ k ∈ Finset.range m, coeffAt st.1 (k + 1) * r.getD (m - k) 0 := by
      calc ∑ k ∈ Finset.range m, st.1.getD k 0 * r.getD (k + 1) 0
          = ∑ k ∈ Finset.range m, coeffAt st.1 (m - k) * r.getD (k + 1) 0 := by
            refine Finset.sum_congr rfl (fun k hk => ?_)
            have hkm := Finset.mem_range.mp hk
            rw [coeffAt_getD st.1 k (by omega), hlen]
        _ = _ := sum_rev_pair m (coeffAt st.1) (fun t => r.getD t 0)
    have hGv : g * st.2
        = r.getD (m + 1) 0 - ∑ k ∈ Finset.range m, coeffAt st.1 (k + 1) * r.getD (m - k) 0 := by
      rw [hgdef, ldG, hlen, div_mul_cancel₀ _ hvi, hdot]
    have hVm : st.2 = r.getD 0 0 - ∑ k ∈ Finset.range m,
        coeffAt st.1 (k + 1) * r.getD (k + 1) 0 := ihV
    -- the reduced sum over the first m new coefficients, for any weight w
    have hrest : ∀ w : ℕ → ℚ,
        ∑ k ∈ Finset.range m, coeffAt (ldStep r st).1 (k + 1) * w (k + 1)
          = (∑ k ∈ Finset.range m, coeffAt st.1 (k + 1) * w (k + 1))
            - g * ∑ k ∈ Finset.range m, coeffAt st.1 (m - k) * w (k + 1) := by
      intro w
      have h1 : ∀ k ∈ Finset.range m,
          coeffAt (ldStep r st).1 (k + 1) * w (k + 1)
            = coeffAt st.1 (k + 1) * w (k + 1)
              - g * (coeffAt st.1 (m - k) * w (k + 1)) := by
        intro k hk
        have hkm := Finset.mem_range.mp hk
        rw [hlow (k + 1) (by omega) (by omega),
          show m + 1 - (k + 1) = m - k by omega]
        ring
      rw [Finset.sum_congr rfl h1, Finset.sum_sub_distrib, ← Finset.mul_sum]
    constructor
    · intro j hj1 hj2
      rw [hstep, Finset.sum_range_succ, show i + 1 + 1 = m + 1 by omega, htop]
      rw [hrest (fun t => r.getD (Nat.dist j t) 0)]
      have hsum2 : ∑ k ∈ Finset.range m, coeffAt st.1 (m - k) * r.getD (Nat.dist j (k + 1)) 0
          = ∑ k ∈ Finset.range m, coeffAt st.1 (k + 1) * r.getD (Nat.dist j (m - k)) 0 :=
        sum_rev_pair m (coeffAt st.1) (fun t => r.getD (Nat.dist j t) 0)
      by_cases hjm : j ≤ m
      · have hIH1 : ∑ k ∈ Finset.range m, coeffAt st.1 (k + 1) * r.getD (Nat.dist j (k + 1)) 0
            = r.getD j 0 := ihYW j hj1 hjm
        have hsum3 : ∑ k ∈ Finset.range m, coeffAt st.1 (k + 1) * r.getD (Nat.dist j (m - k)) 0
            = ∑ k ∈ Finset.range m, coeffAt st.1 (k + 1) * r.getD (Nat.dist (m + 1 - j) (k + 1)) 0 := by
          refine Finset.sum_congr rfl (fun k hk => ?_)
          have hkm := Finset.mem_range.mp hk
          rw [show Nat.dist j (m - k) = Nat.dist (m + 1 - j) (k + 1) by
            rw [hdist, hdist]; omega]
        have hIH2 : ∑ k ∈ Finset.range m, coeffAt st.1 (k + 1) * r.getD (Nat.dist (m + 1 - j) (k + 1)) 0
            = r.getD (m + 1 - j) 0 := ihYW (m + 1 - j) (by omega) (by omega)
        rw [hsum2, hsum3, hIH2, hIH1,
          show Nat.dist j (m + 1) = m + 1 - j by rw [hdist]; omega]
        ring
      · have hj : j = m + 1 := by omega
        subst hj
        have hsum3 : ∑ k ∈ Finset.range m, coeffAt st.1 (k + 1) * r.getD (Nat.dist (m + 1) (m - k)) 0
            = ∑ k ∈ Finset.range m, coeffAt st.1 (k + 1) * r.getD (k + 1) 0 := by
          refine Finset.sum_congr rfl (fun k hk => ?_)
          have hkm := Finset.mem_range.mp hk
          rw [show Nat.dist (m + 1) (m - k) = k + 1 by rw [hdist]; omega]
        have hsum1 : ∑ k ∈ Finset.range m, coeffAt st.1 (k + 1) * r.getD (Nat.dist (m + 1) (k + 1)) 0
            = ∑ k ∈ Finset.range m, coeffAt st.1 (k + 1) * r.getD (m - k) 0 := by
          refine Finset.sum_congr rfl (fun k hk => ?_)
          have hkm := Finset.mem_range.mp hk
          rw [show Nat.dist (m + 1) (k + 1) = m - k by rw [hdist]; omega]
        rw [hsum2, hsum3, hsum1, Nat.dist_self]
        -- goal: S' - g * Sρ + g * ρ0 = ρ(m+1), where by hVm and hGv it closes
        have : g * (r.getD 0 0 - ∑ k ∈ Finset.range m, coeffAt st.1 (k + 1) * r.getD (k + 1) 0)
            = r.getD (m + 1) 0 - ∑ k ∈ Finset.range m, coeffAt st.1 (k + 1) * r.getD (m - k) 0 := by
          rw [← hVm]
          exact hGv
        linarith [this]
    · rw [hstep, Finset.sum_range_succ, show i + 1 + 1 = m + 1 by omega, htop]
      rw [hrest (fun t => r.getD t 0)]
      have hsum2 : ∑ k ∈ Finset.range m, coeffAt st.1 (m - k) * r.getD (k + 1) 0
          = ∑ k ∈ Finset.range m, coeffAt st.1 (k + 1) * r.getD (m - k) 0 :=
        sum_rev_pair m (coeffAt st.1) (fun t => r.getD t 0)
      have hv' : (ldStep r st).2 = st.2 * (1 - g * g) := by
        rw [ldStep_eq]
      have : g * (r.getD 0 0 - ∑ k ∈ Finset.range m, coeffAt st.1 (k + 1) * r.getD (k + 1) 0)
          = r.getD (m + 1) 0 - ∑ k ∈ Finset.range m, coeffAt st.1 (k + 1) * r.getD (m - k) 0 := by
        rw [← hVm]
        exact hGv
      rw [hv', hsum2, hVm]
      linear_combination -(g * this)

theorem ld_length (r : List ℚ) (p : ℕ) (hp : 1 ≤ p) : (ld r p).length = p + 1 := by
  rw [ld, List.length_cons, List.length_map, List.length_reverse,
    ldState_fst_length r (p - 1)]
  omega

theorem ld_getD_zero (r : List ℚ) (p : ℕ) : (ld r p).getD 0 0 = 1 := rfl

theorem ld_getD_succ (r : List ℚ) (p k : ℕ) (hk1 : 1 ≤ k) (hkp : k ≤ p) :
    (ld r p).getD k 0 = -(coeffAt (ldState r (p - 1)).1 k) := by
  have hA : (ldState r (p - 1)).1.length = p - 1 + 1 := ldState_fst_length r (p - 1)
  rw [ld, show k = (k - 1) + 1 by omega, List.getD_cons_succ]
  rw [List.getD_eq_getElem?_getD,
    List.getElem?_eq_getElem (by
      rw [List.length_map, List.length_reverse, hA]; omega),
    Option.getD_some, List.getElem_map, List.getElem_reverse]
  unfold coeffAt
  rw [List.getD_eq_getElem?_getD,
    List.getElem?_eq_getElem (by rw [hA]; omega), Option.getD_some]
  congr 2
  omega

/-- **C5** (amended): for an autocorrelation vector `r[0..p]` with
`p ≥ 1` whose recursion divisors are all nonzero, `ld(r, p)` has length
`p+1`, first entry exactly `1`, and its remaining entries are the
*negated* solution of the Toeplitz system in the order
`[1, -a_1, -a_2, ..., -a_p]` (coefficient of lag `k` at position `k`):
negating positions `1..p` yields values satisfying every row
`sum_k a_k r[|j-k|] = r[j]`, `j = 1..p`.  (The claimed most-recent-first
order `[1, -a_p, ..., -a_1]` is refuted by the counterexample.) -/
theorem ld_solves_toeplitz (r : List ℚ) (p : ℕ) (hp : 1 ≤ p)
    (hlen : r.length = p + 1) (h0 : r.getD 0 0 ≠ 0)
    (hv : ∀ j, j < p - 1 → (ldState r j).2 ≠ 0) :
    (ld r p).length = p + 1 ∧ (ld r p).getD 0 0 = 1 ∧
      ∀ j, 1 ≤ j → j ≤ p →
        ∑ k ∈ Finset.range p,
          (-(ld r p).getD (k + 1) 0) * r.getD (Nat.dist j (k + 1)) 0
          = r.getD j 0 := by
  refine ⟨ld_length r p hp, ld_getD_zero r p, fun j hj1 hjp => ?_⟩
  obtain ⟨hYW, _⟩ := ldState_yw r h0 (p - 1) hv
  have hp1 : p - 1 + 1 = p := by omega
  rw [hp1] at hYW
  have := hYW j hj1 hjp
  rw [← this]
  refine Finset.sum_congr rfl (fun k hk => ?_)
  have hkp := Finset.mem_range.mp hk
  rw [ld_getD_succ r p (k + 1) (by omega) (by omega), neg_neg]

/-- **C5** (counterexample): at `r = [1, 1/2, 1/4]`, `p = 2` (all
divisors nonzero) the code returns `[1, -1/2, 0]`, i.e. `[1, -a_1, -a_2]`
for the solution `a = (1/2, 0)`.  Reading the entries in the claimed
order `[1, -a_p, ..., -a_1]` (so `a_k = -out[p+1-k]`) violates the first
Toeplitz row: the row sum is `1/4`, not `r[1] = 1/2`. -/
theorem ld_order_cex :
    ld [(1 : ℚ), 1/2, 1/4] 2 = [1, -1/2, 0] ∧
      ¬ (∑ k ∈ Finset.range 2,
          (-(ld [(1 : ℚ), 1/2, 1/4] 2).getD (2 + 1 - (k + 1)) 0)
            * ([(1 : ℚ), 1/2, 1/4].getD (Nat.dist 1 (k + 1)) 0)
          = [(1 : ℚ), 1/2, 1/4].getD 1 0) := by
  have hld : ld [(1 : ℚ), 1/2, 1/4] 2 = [1, -1/2, 0] := by
    norm_num [ld, ldState, ldStep, ldInit, Finset.sum_range_succ]
  refine ⟨hld, ?_⟩
  intro hcl
  rw [hld, Finset.sum_range_succ, Finset.sum_range_one] at hcl
  norm_num [Nat.dist] at hcl

/-- Witness for C5 at `r = [1, 1/2, 1/4]`, `p = 2`, Toeplitz row `j = 1`:
divisors `r[0] = 1` and `v_1 = 3/4` are nonzero, the output is
`[1, -1/2, 0]` of length `3` with head `1`, and
`(1/2)*r[0] + 0*r[1] = 1/2 = r[1]`. -/
theorem ld_solves_toeplitz_witness :
    (ld [(1 : ℚ), 1/2, 1/4] 2).length = 2 + 1 ∧
      (ld [(1 : ℚ), 1/2, 1/4] 2).getD 0 0 = 1 ∧
      ∑ k ∈ Finset.range 2,
        (-(ld [(1 : ℚ), 1/2, 1/4] 2).getD (k + 1) 0)
          * ([(1 : ℚ), 1/2, 1/4].getD (Nat.dist 1 (k + 1)) 0)
        = [(1 : ℚ), 1/2, 1/4].getD 1 0 := by
  obtain ⟨h1, h2, h3⟩ := ld_solves_toeplitz [(1 : ℚ), 1/2, 1/4] 2 (by norm_num) rfl
    (by norm_num)
    (fun j hj => by
      have hj0 : j = 0 := by omega
      subst hj0
      show (ldInit [(1 : ℚ), 1/2, 1/4]).2 ≠ 0
      norm_num [ldInit])
  exact ⟨h1, h2, h3 1 (by norm_num) (by norm_num)⟩
